import Mathlib

/-!
Verification development for the HestiaViz Redux reading application.

The definitions below are a shallow embedding of the JavaScript source:

* `getMemoryPlaces` embeds the memory-window place selector of
  `ReadingView` (App.jsx).  The helper functions `addCurrentPlaces`,
  `addMemoryPlaces` and `memoryLoop` decompose the two `forEach` passes
  and the `for`-loop of the source; the extra `List String` component
  threads the `seenCurrent` / `seenMemory` sets, and `memoryLoop`
  additionally returns the final seen set so that the loop invariants
  can be stated.
* `annotatedText` embeds the offset-based text annotation of
  `TextPanel.jsx` (`annotatedText` memo).
* `coOccurringPlaces` embeds the co-occurrence list of
  `PlaceDetailView.jsx`.
* `fetchGreekText`, `handleLanguageToggle`, `greekEffectShouldFetch`
  and `renderGreekPane` embed the supplementary Greek-text logic of
  `ReadingView`; the network outcome is passed in as a `FetchOutcome`.
* `handlePlaceClick` / `handleMapPlaceClick` embed the two click
  handlers of `ReadingView`.

JavaScript numbers are modelled as exact rationals (`ℚ`); JavaScript
truthiness of coordinates (`placeData.lat && placeData.lng`) is modelled
by `truthyCoord` (absent or zero is falsy), truthiness of cached strings
by `truthyStr` (absent or empty is falsy).  JavaScript objects used as
keyed maps are modelled as association lists in key-insertion order.
-/

/-- A single `(book, chapter)` occurrence record of a gazetteer place. -/
structure Occurrence where
  book : Int
  chapter : Int
deriving DecidableEq, Repr

/-- A gazetteer entry from `places.json`.  Only the fields the verified
logic reads are modelled; purely presentational fields (placeType,
external links, ...) are omitted. -/
structure Place where
  id : String
  name : String
  lat : Option ℚ
  lng : Option ℚ
  occurrences : List Occurrence
deriving DecidableEq, Repr

/-- An in-text place mention, anchored by character offsets. -/
structure Mention where
  placeId : String
  name : String
  startOffset : Nat
  endOffset : Nat
deriving DecidableEq, Repr

/-- A chapter of a book text file. -/
structure Chapter where
  id : Int
  text : String
  places : List Mention
deriving DecidableEq, Repr

/-- A book: the part of `book-N-text.json` the selector reads. -/
structure Book where
  chapters : List Chapter
deriving DecidableEq, Repr

/-- The gazetteer object `places.places`, as an association list keyed by
place id. -/
abbrev PlacesData := List (String × Place)

/-- Key consistency of the gazetteer: every entry is stored under its own
id.  This is the shape `places.json` has by construction. -/
def KeyConsistent (pd : PlacesData) : Prop := ∀ e ∈ pd, e.2.id = e.1

instance : DecidablePred KeyConsistent := fun pd =>
  inferInstanceAs (Decidable (∀ e ∈ pd, e.2.id = e.1))

/-- `placesData[k]` – property lookup on the gazetteer object. -/
def lookupPlace (pd : PlacesData) (k : String) : Option Place :=
  (pd.find? (fun e => e.1 == k)).map (·.2)

/-- JavaScript truthiness of a coordinate field: `undefined`/`null` and
`0` are falsy. -/
def truthyCoord : Option ℚ → Bool
  | none => false
  | some v => decide (v ≠ 0)

/-- The guard `placeData.lat && placeData.lng` of the source. -/
def hasCoords (p : Place) : Bool := truthyCoord p.lat && truthyCoord p.lng

/-- Coordinate check through the gazetteer:
`placeData && placeData.lat && placeData.lng` for `placesData[k]`. -/
def hasCoordsKey (pd : PlacesData) (k : String) : Bool :=
  match lookupPlace pd k with
  | some p => hasCoords p
  | none => false

/-- `bookData.chapters.find(c => c.id === n)`. -/
def findChapter (b : Book) (n : Int) : Option Chapter :=
  b.chapters.find? (fun c => c.id == n)

/-- The mention list of chapter `n`, empty when the chapter is absent. -/
def chapterMentions (b : Book) (n : Int) : List Mention :=
  match findChapter b n with
  | some c => c.places
  | none => []

/-- A map marker produced by the selector: the spread gazetteer record
plus `opacity` and (for memory markers) `memoryChapter`. -/
structure MapPlace where
  place : Place
  opacity : ℚ
  memoryChapter : Option Int
deriving DecidableEq, Repr

/-- `const MEMORY_WINDOW = 10`. -/
def MEMORY_WINDOW : Nat := 10

/-- First `forEach` pass of `getMemoryPlaces`: collect the current
chapter places, threading `seenCurrent`. -/
def addCurrentPlaces (pd : PlacesData) :
    List Mention → List String → List MapPlace × List String
  | [], seen => ([], seen)
  | m :: rest, seen =>
    match lookupPlace pd m.placeId with
    | some pl =>
      if hasCoords pl && !(seen.contains m.placeId) then
        let r := addCurrentPlaces pd rest (m.placeId :: seen)
        (⟨pl, 1, none⟩ :: r.1, r.2)
      else
        addCurrentPlaces pd rest seen
    | none => addCurrentPlaces pd rest seen

/-- Per-chapter `forEach` pass of the memory loop, threading
`seenMemory` and skipping places already in `seenCurrent`. -/
def addMemoryPlaces (pd : PlacesData) (seenCurrent : List String)
    (memChapter : Int) (opacity : ℚ) :
    List Mention → List String → List MapPlace × List String
  | [], seenMem => ([], seenMem)
  | m :: rest, seenMem =>
    match lookupPlace pd m.placeId with
    | some pl =>
      if hasCoords pl && !(seenCurrent.contains m.placeId)
          && !(seenMem.contains m.placeId) then
        let r := addMemoryPlaces pd seenCurrent memChapter opacity rest
          (m.placeId :: seenMem)
        (⟨pl, opacity, some memChapter⟩ :: r.1, r.2)
      else
        addMemoryPlaces pd seenCurrent memChapter opacity rest seenMem
    | none => addMemoryPlaces pd seenCurrent memChapter opacity rest seenMem

/-- The `for (let i = 1; i <= MEMORY_WINDOW; i++)` loop of
`getMemoryPlaces`.  `i` is the current distance, `fuel` the number of
remaining iterations (`MEMORY_WINDOW - i + 1` at the call site); the
loop breaks when `currentChapter - i < 1` and continues past missing
chapters.  The final `seenMemory` set is returned alongside the list. -/
def memoryLoop (pd : PlacesData) (b : Book) (seenCurrent : List String)
    (currentChapter : Int) :
    Nat → Nat → List String → List MapPlace × List String
  | _, 0, seenMem => ([], seenMem)
  | i, fuel + 1, seenMem =>
    let memChapter := currentChapter - (i : Int)
    if memChapter < 1 then ([], seenMem)
    else
      match findChapter b memChapter with
      | none => memoryLoop pd b seenCurrent currentChapter (i + 1) fuel seenMem
      | some ch =>
        let opacity : ℚ := 1 - (i : ℚ) * (9 / 100)
        let r := addMemoryPlaces pd seenCurrent memChapter opacity ch.places seenMem
        let rest := memoryLoop pd b seenCurrent currentChapter (i + 1) fuel r.2
        (r.1 ++ rest.1, rest.2)

/-- Result of `getMemoryPlaces`: `{ current, memory }`. -/
structure MemoryResult where
  current : List MapPlace
  memory : List MapPlace
deriving DecidableEq, Repr

/-- The memory-window place selector `getMemoryPlaces` of
`ReadingView`. -/
def getMemoryPlaces (pd : PlacesData) (b : Book) (currentChapter : Int) :
    MemoryResult :=
  let cur := addCurrentPlaces pd (chapterMentions b currentChapter) []
  let mem := memoryLoop pd b cur.2 currentChapter 1 MEMORY_WINDOW []
  ⟨cur.1, mem.1⟩

/-- The place ids of the `current` set. -/
def currentIds (r : MemoryResult) : List String :=
  r.current.map (fun mp => mp.place.id)

/-- The place ids of the `memory` set. -/
def memoryIds (r : MemoryResult) : List String :=
  r.memory.map (fun mp => mp.place.id)

/-- A segment produced by the `annotatedText` memo of `TextPanel`. -/
inductive TextSegment where
  | text (content : String)
  | place (placeId : String) (name : String) (hasCoords : Bool)
      (isSelected : Bool) (isHighlighted : Bool)
deriving DecidableEq, Repr

/-- `text.slice(a, b)` of JavaScript on non-negative indices (both ends
clamped to the string length). -/
def jsSlice (s : String) (a b : Nat) : String :=
  String.mk ((s.data.drop a).take (b - a))

/-- `text.slice(a)` of JavaScript on a non-negative index. -/
def jsSliceFrom (s : String) (a : Nat) : String :=
  String.mk (s.data.drop a)

/-- `[...places].sort((a, b) => a.startOffset - b.startOffset)` – a
stable sort by start offset. -/
def sortMentions (ms : List Mention) : List Mention :=
  ms.insertionSort (fun a b => a.startOffset ≤ b.startOffset)

/-- The `forEach` body of the `annotatedText` memo plus the trailing
push, threading `lastEnd`. -/
def annotateSegments (pd : PlacesData) (sel : Option String)
    (hl : List String) (text : String) :
    List Mention → Nat → List TextSegment
  | [], lastEnd =>
    if lastEnd < text.length then [TextSegment.text (jsSliceFrom text lastEnd)]
    else []
  | m :: rest, lastEnd =>
    (if lastEnd < m.startOffset then
      [TextSegment.text (jsSlice text lastEnd m.startOffset)]
    else []) ++
    TextSegment.place m.placeId m.name (hasCoordsKey pd m.placeId)
      (decide (sel = some m.placeId)) (hl.contains m.placeId) ::
    annotateSegments pd sel hl text rest m.endOffset

/-- The `annotatedText` memo of `TextPanel`: sort the mentions by start
offset, then alternate plain-text slices with place-mention segments. -/
def annotatedText (pd : PlacesData) (sel : Option String)
    (hl : List String) (ch : Chapter) : List TextSegment :=
  annotateSegments pd sel hl ch.text (sortMentions ch.places) 0

/-- The text a segment contributes to the rendered chapter: plain
segments render `content`, place segments render `name`. -/
def renderSegment : TextSegment → String
  | .text c => c
  | .place _ name _ _ _ => name

/-- Concatenation of the rendered contents of a segment list. -/
def concatSegments (l : List TextSegment) : String :=
  l.foldr (fun s acc => renderSegment s ++ acc) ""

/-- View language of `ReadingView` (the `language` state). -/
inductive ViewLanguage where
  | english
  | greek
deriving DecidableEq, Repr

/-- The `greekText` cache (`useState({})`), keyed by chapter number. -/
abbrev GreekCache := List (Int × String)

/-- `greekText[chapter]` – property lookup on the cache object. -/
def cacheLookup (c : GreekCache) (k : Int) : Option String :=
  (c.find? (fun e => e.1 == k)).map (·.2)

/-- JavaScript truthiness of a cached string: `undefined` and `""` are
falsy. -/
def truthyStr : Option String → Bool
  | none => false
  | some s => decide (s ≠ "")

/-- `setGreekText(prev => ({ ...prev, [chapter]: v }))` – overwrite the
key in place or append it. -/
def cacheInsert : GreekCache → Int → String → GreekCache
  | [], k, v => [(k, v)]
  | e :: rest, k, v =>
    if e.1 == k then (k, v) :: rest else e :: cacheInsert rest k v

/-- Outcome of the Perseus request as seen by `fetchGreekText`: either
the parsed `greekContent` string, or a thrown error. -/
inductive FetchOutcome where
  | ok (content : String)
  | err
deriving DecidableEq, Repr

/-- The message stored by the `catch` branch of `fetchGreekText`. -/
def greekErrorMessage : String := "Error loading Greek text. Please try again."

/-- The fallback stored when the parsed content is empty. -/
def greekMissingMessage : String := "Greek text not available for this chapter."

/-- The message `TextPanel` renders while no cache entry exists. -/
def greekLoadingMessage : String := "Loading Greek text..."

/-- State effect of `fetchGreekText(bookId, chapter)`: on success store
`greekContent || missing-message`, on a thrown error store the inline
error message. -/
def fetchGreekText (chapter : Int) (outcome : FetchOutcome)
    (cache : GreekCache) : GreekCache :=
  match outcome with
  | .ok content =>
    cacheInsert cache chapter
      (if content = "" then greekMissingMessage else content)
  | .err => cacheInsert cache chapter greekErrorMessage

/-- `handleLanguageToggle`: flip the language and report whether a fetch
for the current chapter is triggered
(newLang is greek and the chapter has no truthy cache entry). -/
def handleLanguageToggle (language : ViewLanguage) (cache : GreekCache)
    (currentChapter : Int) : ViewLanguage × Bool :=
  let newLang := match language with
    | .english => ViewLanguage.greek
    | .greek => ViewLanguage.english
  (newLang,
    decide (newLang = ViewLanguage.greek)
      && !(truthyStr (cacheLookup cache currentChapter)))

/-- Guard of the Greek-text `useEffect`:
language is greek and the chapter has no truthy cache entry. -/
def greekEffectShouldFetch (language : ViewLanguage) (cache : GreekCache)
    (currentChapter : Int) : Bool :=
  decide (language = ViewLanguage.greek)
    && !(truthyStr (cacheLookup cache currentChapter))

/-- What the Greek pane of `TextPanel` shows:
the cached string when truthy, else the loading message. -/
def renderGreekPane (cache : GreekCache) (chapter : Int) : String :=
  match cacheLookup cache chapter with
  | some s => if s = "" then greekLoadingMessage else s
  | none => greekLoadingMessage

/-- Selection state of `ReadingView`: `selectedPlace` and the
`highlightedPlaces` set. -/
structure ViewState where
  selectedPlace : Option String
  highlightedPlaces : List String
deriving DecidableEq, Repr

/-- A client-side navigation performed by a handler. -/
inductive NavTarget where
  | placeDetail (placeId : String)
deriving DecidableEq, Repr

/-- `handlePlaceClick` of `ReadingView` (text-side click): select and
highlight the clicked place id. -/
def handlePlaceClick (placeId : String) (s : ViewState) : ViewState :=
  { s with selectedPlace := some placeId, highlightedPlaces := [placeId] }

/-- `handleMapPlaceClick` of the shipped `ReadingView` (App.jsx): it
only navigates to the place-detail route and leaves the selection state
untouched. -/
def handleMapPlaceClick (placeId : String) (s : ViewState) :
    ViewState × NavTarget :=
  (s, NavTarget.placeDetail placeId)

/-- `handleMapPlaceClick` of the earlier `ReadingView` variant
(src/unnamed/part_000): identical to `handlePlaceClick`. -/
def handleMapPlaceClickVariant (placeId : String) (s : ViewState) :
    ViewState :=
  { s with selectedPlace := some placeId, highlightedPlaces := [placeId] }

/-- An entry of the co-occurrence list: the spread gazetteer record plus
`coCount`. -/
structure CoPlace where
  place : Place
  coCount : Nat
deriving DecidableEq, Repr

/-- The `chapterSet` of `coOccurringPlaces`: the `(book, chapter)`
keys of the viewed place.  The source uses template strings of the form
book-hyphen-chapter, which encode integer pairs injectively. -/
def chapterKeySet (place : Place) : List (Int × Int) :=
  place.occurrences.map (fun o => (o.book, o.chapter))

/-- The `count` loop of `coOccurringPlaces` for one gazetteer entry. -/
def coCountOf (keys : List (Int × Int)) (p : Place) : Nat :=
  p.occurrences.countP (fun o => keys.contains (o.book, o.chapter))

/-- `coPlaces[p.id] = entry` on a JavaScript object: overwrite in place
or append. -/
def upsertCoPlace : List CoPlace → CoPlace → List CoPlace
  | [], e => [e]
  | x :: xs, e =>
    if x.place.id == e.place.id then e :: xs else x :: upsertCoPlace xs e

/-- The `Object.values(placesData).forEach` pass of
`coOccurringPlaces`. -/
def buildCoPlaces (placeId : String) (keys : List (Int × Int)) :
    List (String × Place) → List CoPlace → List CoPlace
  | [], acc => acc
  | e :: rest, acc =>
    if e.2.id == placeId then buildCoPlaces placeId keys rest acc
    else
      let c := coCountOf keys e.2
      if 0 < c then
        buildCoPlaces placeId keys rest (upsertCoPlace acc ⟨e.2, c⟩)
      else
        buildCoPlaces placeId keys rest acc

/-- `.sort((a, b) => b.coCount - a.coCount)` – sort by descending
co-occurrence count. -/
def coSort (l : List CoPlace) : List CoPlace :=
  l.insertionSort (fun a b => b.coCount ≤ a.coCount)

/-- The `coOccurringPlaces` memo of `PlaceDetailView`. -/
def coOccurringPlaces (pd : PlacesData) (placeId : String) : List CoPlace :=
  match lookupPlace pd placeId with
  | none => []
  | some place =>
    (coSort (buildCoPlaces placeId (chapterKeySet place) pd [])).take 10

/-! ### Basic facts about the gazetteer lookup -/

theorem lookupPlace_mem {pd : PlacesData} {k : String} {pl : Place}
    (h : lookupPlace pd k = some pl) : ∃ e ∈ pd, e.1 = k ∧ e.2 = pl := by
  unfold lookupPlace at h
  rcases Option.map_eq_some'.1 h with ⟨e, he, hpl⟩
  refine ⟨e, List.mem_of_find?_eq_some he, ?_, hpl⟩
  have := List.find?_some he
  exact beq_iff_eq.1 this

theorem lookupPlace_id {pd : PlacesData} {k : String} {pl : Place}
    (hk : KeyConsistent pd) (h : lookupPlace pd k = some pl) : pl.id = k := by
  rcases lookupPlace_mem h with ⟨e, hmem, h1, h2⟩
  have := hk e hmem
  rw [h2] at this
  rw [this, h1]

theorem contains_iff (l : List String) (k : String) :
    l.contains k = true ↔ k ∈ l := by
  exact List.elem_iff

theorem contains_false_iff (l : List String) (k : String) :
    l.contains k = false ↔ k ∉ l := by
  constructor
  · intro h hmem
    rw [(contains_iff l k).2 hmem] at h
    exact Bool.noConfusion h
  · intro h
    cases hv : l.contains k with
    | false => rfl
    | true => exact absurd ((contains_iff l k).1 hv) h

/-! ### Invariants of the current-chapter pass -/

theorem addCurrentPlaces_sound (pd : PlacesData) :
    ∀ (ms : List Mention) (seen : List String),
      ∀ mp ∈ (addCurrentPlaces pd ms seen).1,
        mp.opacity = 1 ∧ mp.memoryChapter = none ∧
        ∃ m ∈ ms, lookupPlace pd m.placeId = some mp.place ∧
          hasCoords mp.place = true := by
  intro ms
  induction ms with
  | nil =>
    intro seen mp h
    simp [addCurrentPlaces] at h
  | cons m rest ih =>
    intro seen mp h
    rw [addCurrentPlaces] at h
    split at h
    case h_2 =>
      rcases ih seen mp h with ⟨h1, h2, m', hm', h3⟩
      exact ⟨h1, h2, m', List.mem_cons_of_mem _ hm', h3⟩
    case h_1 pl hl =>
      split at h
      case isTrue hc =>
        simp only [List.mem_cons] at h
        rcases h with h | h
        · subst h
          refine ⟨rfl, rfl, m, List.mem_cons_self _ _, hl, ?_⟩
          simp only [Bool.and_eq_true, Bool.not_eq_true'] at hc
          exact hc.1
        · rcases ih (m.placeId :: seen) mp h with ⟨h1, h2, m', hm', h3⟩
          exact ⟨h1, h2, m', List.mem_cons_of_mem _ hm', h3⟩
      case isFalse hc =>
        rcases ih seen mp h with ⟨h1, h2, m', hm', h3⟩
        exact ⟨h1, h2, m', List.mem_cons_of_mem _ hm', h3⟩

theorem addCurrentPlaces_seen_eq {pd : PlacesData} (hk : KeyConsistent pd) :
    ∀ (ms : List Mention) (seen : List String),
      (addCurrentPlaces pd ms seen).2 =
        ((addCurrentPlaces pd ms seen).1.map (fun mp => mp.place.id)).reverse
          ++ seen := by
  intro ms
  induction ms with
  | nil => intro seen; simp [addCurrentPlaces]
  | cons m rest ih =>
    intro seen
    rw [addCurrentPlaces]
    split
    case h_2 => exact ih seen
    case h_1 pl hl =>
      split
      case isTrue hc =>
        have hid : pl.id = m.placeId := lookupPlace_id hk hl
        simp only [List.map_cons, List.reverse_cons, List.append_assoc,
          List.singleton_append]
        rw [hid, ih (m.placeId :: seen)]
      case isFalse hc => exact ih seen

theorem addCurrentPlaces_seen_nodup (pd : PlacesData) :
    ∀ (ms : List Mention) (seen : List String), seen.Nodup →
      (addCurrentPlaces pd ms seen).2.Nodup := by
  intro ms
  induction ms with
  | nil => intro seen h; simpa [addCurrentPlaces] using h
  | cons m rest ih =>
    intro seen h
    rw [addCurrentPlaces]
    split
    case h_2 => exact ih seen h
    case h_1 pl hl =>
      split
      case isTrue hc =>
        simp only [Bool.and_eq_true, Bool.not_eq_true'] at hc
        have hnotin : m.placeId ∉ seen := (contains_false_iff seen m.placeId).1 hc.2
        exact ih (m.placeId :: seen) (List.nodup_cons.2 ⟨hnotin, h⟩)
      case isFalse hc => exact ih seen h

theorem addCurrentPlaces_complete (pd : PlacesData) :
    ∀ (ms : List Mention) (seen : List String),
      ∀ m ∈ ms, ∀ pl, lookupPlace pd m.placeId = some pl →
        hasCoords pl = true → m.placeId ∉ seen →
        ∃ mp ∈ (addCurrentPlaces pd ms seen).1, mp.place = pl := by
  intro ms
  induction ms with
  | nil => intro seen m hm; cases hm
  | cons m0 rest ih =>
    intro seen m hm pl hl hco hns
    rw [addCurrentPlaces]
    split
    case h_2 hl0 =>
      rcases List.mem_cons.1 hm with hh | hh
      · subst hh; rw [hl0] at hl; simp at hl
      · exact ih seen m hh pl hl hco hns
    case h_1 pl0 hl0 =>
      split
      case isTrue hc =>
        by_cases heq : m.placeId = m0.placeId
        · have hpl : pl0 = pl := by
            rw [heq, hl0] at hl
            exact Option.some_inj.1 hl
          exact ⟨⟨pl0, 1, none⟩, List.mem_cons_self _ _, hpl⟩
        · have hm' : m ∈ rest := by
            rcases List.mem_cons.1 hm with hh | hh
            · exact absurd (by rw [hh]) heq
            · exact hh
          have hns' : m.placeId ∉ m0.placeId :: seen := by
            intro hcon
            rcases List.mem_cons.1 hcon with hcon | hcon
            · exact heq hcon
            · exact hns hcon
          rcases ih (m0.placeId :: seen) m hm' pl hl hco hns' with ⟨mp, hmp, hpl⟩
          exact ⟨mp, List.mem_cons_of_mem _ hmp, hpl⟩
      case isFalse hc =>
        rcases List.mem_cons.1 hm with hh | hh
        · subst hh
          exfalso
          rw [hl0] at hl
          have hpl : pl0 = pl := Option.some_inj.1 hl
          apply hc
          rw [hpl]
          simp only [Bool.and_eq_true, Bool.not_eq_true']
          exact ⟨hco, (contains_false_iff seen m.placeId).2 hns⟩
        · exact ih seen m hh pl hl hco hns

/-! ### Invariants of the per-chapter memory pass -/

theorem addMemoryPlaces_sound (pd : PlacesData) (sc : List String)
    (mc : Int) (op : ℚ) :
    ∀ (ms : List Mention) (seenMem : List String),
      ∀ mp ∈ (addMemoryPlaces pd sc mc op ms seenMem).1,
        mp.opacity = op ∧ mp.memoryChapter = some mc ∧
        ∃ m ∈ ms, lookupPlace pd m.placeId = some mp.place ∧
          hasCoords mp.place = true ∧ m.placeId ∉ sc ∧ m.placeId ∉ seenMem := by
  intro ms
  induction ms with
  | nil =>
    intro seenMem mp h
    simp [addMemoryPlaces] at h
  | cons m rest ih =>
    intro seenMem mp h
    rw [addMemoryPlaces] at h
    split at h
    case h_2 =>
      rcases ih seenMem mp h with ⟨h1, h2, m', hm', h3, h4, h5, h6⟩
      exact ⟨h1, h2, m', List.mem_cons_of_mem _ hm', h3, h4, h5, h6⟩
    case h_1 pl hl =>
      split at h
      case isTrue hc =>
        simp only [Bool.and_eq_true, Bool.not_eq_true'] at hc
        simp only [List.mem_cons] at h
        rcases h with h | h
        · subst h
          exact ⟨rfl, rfl, m, List.mem_cons_self _ _, hl, hc.1.1,
            (contains_false_iff _ _).1 hc.1.2, (contains_false_iff _ _).1 hc.2⟩
        · rcases ih (m.placeId :: seenMem) mp h with ⟨h1, h2, m', hm', h3, h4, h5, h6⟩
          exact ⟨h1, h2, m', List.mem_cons_of_mem _ hm', h3, h4, h5,
            fun hcon => h6 (List.mem_cons_of_mem _ hcon)⟩
      case isFalse hc =>
        rcases ih seenMem mp h with ⟨h1, h2, m', hm', h3, h4, h5, h6⟩
        exact ⟨h1, h2, m', List.mem_cons_of_mem _ hm', h3, h4, h5, h6⟩

theorem addMemoryPlaces_seen_eq {pd : PlacesData} (hk : KeyConsistent pd)
    (sc : List String) (mc : Int) (op : ℚ) :
    ∀ (ms : List Mention) (seenMem : List String),
      (addMemoryPlaces pd sc mc op ms seenMem).2 =
        ((addMemoryPlaces pd sc mc op ms seenMem).1.map
          (fun mp => mp.place.id)).reverse ++ seenMem := by
  intro ms
  induction ms with
  | nil => intro seenMem; simp [addMemoryPlaces]
  | cons m rest ih =>
    intro seenMem
    rw [addMemoryPlaces]
    split
    case h_2 => exact ih seenMem
    case h_1 pl hl =>
      split
      case isTrue hc =>
        have hid : pl.id = m.placeId := lookupPlace_id hk hl
        simp only [List.map_cons, List.reverse_cons, List.append_assoc,
          List.singleton_append]
        rw [hid, ih (m.placeId :: seenMem)]
      case isFalse hc => exact ih seenMem

theorem addMemoryPlaces_seen_nodup (pd : PlacesData) (sc : List String)
    (mc : Int) (op : ℚ) :
    ∀ (ms : List Mention) (seenMem : List String), seenMem.Nodup →
      (addMemoryPlaces pd sc mc op ms seenMem).2.Nodup := by
  intro ms
  induction ms with
  | nil => intro seenMem h; simpa [addMemoryPlaces] using h
  | cons m rest ih =>
    intro seenMem h
    rw [addMemoryPlaces]
    split
    case h_2 => exact ih seenMem h
    case h_1 pl hl =>
      split
      case isTrue hc =>
        simp only [Bool.and_eq_true, Bool.not_eq_true'] at hc
        have hnotin : m.placeId ∉ seenMem := (contains_false_iff _ _).1 hc.2
        exact ih (m.placeId :: seenMem) (List.nodup_cons.2 ⟨hnotin, h⟩)
      case isFalse hc => exact ih seenMem h

theorem addMemoryPlaces_complete (pd : PlacesData) (sc : List String)
    (mc : Int) (op : ℚ) :
    ∀ (ms : List Mention) (seenMem : List String),
      ∀ m ∈ ms, ∀ pl, lookupPlace pd m.placeId = some pl →
        hasCoords pl = true → m.placeId ∉ sc → m.placeId ∉ seenMem →
        ∃ mp ∈ (addMemoryPlaces pd sc mc op ms seenMem).1, mp.place = pl := by
  intro ms
  induction ms with
  | nil => intro seenMem m hm; cases hm
  | cons m0 rest ih =>
    intro seenMem m hm pl hl hco hnc hns
    rw [addMemoryPlaces]
    split
    case h_2 hl0 =>
      rcases List.mem_cons.1 hm with hh | hh
      · subst hh; rw [hl0] at hl; simp at hl
      · exact ih seenMem m hh pl hl hco hnc hns
    case h_1 pl0 hl0 =>
      split
      case isTrue hc =>
        by_cases heq : m.placeId = m0.placeId
        · have hpl : pl0 = pl := by
            rw [heq, hl0] at hl
            exact Option.some_inj.1 hl
          exact ⟨⟨pl0, op, some mc⟩, List.mem_cons_self _ _, hpl⟩
        · have hm' : m ∈ rest := by
            rcases List.mem_cons.1 hm with hh | hh
            · exact absurd (by rw [hh]) heq
            · exact hh
          have hns' : m.placeId ∉ m0.placeId :: seenMem := by
            intro hcon
            rcases List.mem_cons.1 hcon with hcon | hcon
            · exact heq hcon
            · exact hns hcon
          rcases ih (m0.placeId :: seenMem) m hm' pl hl hco hnc hns' with
            ⟨mp, hmp, hpl⟩
          exact ⟨mp, List.mem_cons_of_mem _ hmp, hpl⟩
      case isFalse hc =>
        rcases List.mem_cons.1 hm with hh | hh
        · subst hh
          exfalso
          rw [hl0] at hl
          have hpl : pl0 = pl := Option.some_inj.1 hl
          apply hc
          rw [hpl]
          simp only [Bool.and_eq_true, Bool.not_eq_true']
          exact ⟨⟨hco, (contains_false_iff _ _).2 hnc⟩,
            (contains_false_iff _ _).2 hns⟩
        · exact ih seenMem m hh pl hl hco hnc hns

/-! ### Invariants of the memory-window loop -/

theorem memoryLoop_seen_eq {pd : PlacesData} (hk : KeyConsistent pd)
    (b : Book) (sc : List String) (N : Int) :
    ∀ (fuel i : Nat) (sm : List String),
      (memoryLoop pd b sc N i fuel sm).2 =
        ((memoryLoop pd b sc N i fuel sm).1.map
          (fun mp => mp.place.id)).reverse ++ sm := by
  intro fuel
  induction fuel with
  | zero => intro i sm; simp [memoryLoop]
  | succ fuel ih =>
    intro i sm
    rw [memoryLoop]
    split
    · simp
    · split
      case h_1 => exact ih (i + 1) sm
      case h_2 ch hch =>
        simp only [List.map_append, List.reverse_append, List.append_assoc]
        rw [ih (i + 1), addMemoryPlaces_seen_eq hk]

theorem memoryLoop_seen_nodup (pd : PlacesData) (b : Book)
    (sc : List String) (N : Int) :
    ∀ (fuel i : Nat) (sm : List String), sm.Nodup →
      (memoryLoop pd b sc N i fuel sm).2.Nodup := by
  intro fuel
  induction fuel with
  | zero => intro i sm h; simpa [memoryLoop] using h
  | succ fuel ih =>
    intro i sm h
    rw [memoryLoop]
    split
    · simpa using h
    · split
      case h_1 => exact ih (i + 1) sm h
      case h_2 ch hch =>
        exact ih (i + 1) _ (addMemoryPlaces_seen_nodup pd sc _ _ ch.places sm h)

theorem memoryLoop_sound {pd : PlacesData} (hk : KeyConsistent pd)
    (b : Book) (sc : List String) (N : Int) :
    ∀ (fuel i : Nat) (sm : List String),
      ∀ mp ∈ (memoryLoop pd b sc N i fuel sm).1,
        ∃ d : Nat, i ≤ d ∧ d < i + fuel ∧ 1 ≤ N - (d : Int) ∧
          mp.opacity = 1 - (d : ℚ) * (9 / 100) ∧
          mp.memoryChapter = some (N - (d : Int)) ∧
          lookupPlace pd mp.place.id = some mp.place ∧
          hasCoords mp.place = true ∧
          (∃ m ∈ chapterMentions b (N - (d : Int)), m.placeId = mp.place.id) ∧
          mp.place.id ∉ sc ∧ mp.place.id ∉ sm := by
  intro fuel
  induction fuel with
  | zero => intro i sm mp h; simp [memoryLoop] at h
  | succ fuel ih =>
    intro i sm mp h
    rw [memoryLoop] at h
    split at h
    case isTrue hbr => simp at h
    case isFalse hbr =>
      split at h
      case h_1 hch =>
        rcases ih (i + 1) sm mp h with
          ⟨d, hd1, hd2, hd3, hd4, hd5, hd6, hd7, hd8, hd9, hd10⟩
        exact ⟨d, le_trans (Nat.le_succ i) hd1, by omega, hd3, hd4, hd5, hd6,
          hd7, hd8, hd9, hd10⟩
      case h_2 ch hch =>
        simp only [List.mem_append] at h
        rcases h with h | h
        · rcases addMemoryPlaces_sound pd sc _ _ ch.places sm mp h with
            ⟨h1, h2, m, hm, h3, h4, h5, h6⟩
          have hid : mp.place.id = m.placeId := lookupPlace_id hk h3
          refine ⟨i, le_refl i, by omega, by omega, h1, h2, ?_, h4, ?_, ?_, ?_⟩
          · rw [hid]; exact h3
          · refine ⟨m, ?_, hid.symm⟩
            unfold chapterMentions
            rw [hch]
            exact hm
          · rw [hid]; exact h5
          · rw [hid]; exact h6
        · rcases ih (i + 1) _ mp h with
            ⟨d, hd1, hd2, hd3, hd4, hd5, hd6, hd7, hd8, hd9, hd10⟩
          refine ⟨d, by omega, by omega, hd3, hd4, hd5, hd6, hd7, hd8, hd9, ?_⟩
          intro hcon
          apply hd10
          rw [addMemoryPlaces_seen_eq hk]
          exact List.mem_append_right _ hcon

theorem memoryLoop_complete {pd : PlacesData} (hk : KeyConsistent pd)
    (b : Book) (sc : List String) (N : Int) :
    ∀ (fuel i : Nat) (sm : List String) (d : Nat), i ≤ d → d < i + fuel →
      1 ≤ N - (d : Int) →
      ∀ m ∈ chapterMentions b (N - (d : Int)), ∀ pl,
        lookupPlace pd m.placeId = some pl → hasCoords pl = true →
        m.placeId ∉ sc → m.placeId ∉ sm →
        ∃ mp ∈ (memoryLoop pd b sc N i fuel sm).1, mp.place = pl := by
  intro fuel
  induction fuel with
  | zero => intro i sm d hd1 hd2; omega
  | succ fuel ih =>
    intro i sm d hd1 hd2 hd3 m hm pl hl hco hnc hns
    rw [memoryLoop]
    split
    case isTrue hbr =>
      exfalso
      have : (i : Int) ≤ (d : Int) := by exact_mod_cast hd1
      omega
    case isFalse hbr =>
      split
      case h_1 hch =>
        by_cases hdi : d = i
        · subst hdi
          exfalso
          rw [chapterMentions, hch] at hm
          cases hm
        · exact ih (i + 1) sm d (by omega) (by omega) hd3 m hm pl hl hco hnc hns
      case h_2 ch hch =>
        simp only [List.mem_append]
        by_cases hdi : d = i
        · subst hdi
          have hm' : m ∈ ch.places := by
            rw [chapterMentions, hch] at hm
            exact hm
          rcases addMemoryPlaces_complete pd sc _ _ ch.places sm m hm' pl hl
            hco hnc hns with ⟨mp, hmp, hpl⟩
          exact ⟨mp, Or.inl hmp, hpl⟩
        · by_cases hin :
            m.placeId ∈ (addMemoryPlaces pd sc (N - (i : Int))
              (1 - (i : ℚ) * (9 / 100)) ch.places sm).1.map (fun mp => mp.place.id)
          · rcases List.mem_map.1 hin with ⟨mp, hmp, hpid⟩
            rcases addMemoryPlaces_sound pd sc _ _ ch.places sm mp hmp with
              ⟨_, _, m0, _, h3, _, _, _⟩
            have hid : mp.place.id = m0.placeId := lookupPlace_id hk h3
            have : lookupPlace pd m.placeId = some mp.place := by
              rw [← hpid, hid]
              exact h3
            rw [hl] at this
            exact ⟨mp, Or.inl hmp, (Option.some_inj.1 this).symm⟩
          · have hns' :
                m.placeId ∉ (addMemoryPlaces pd sc (N - (i : Int))
                  (1 - (i : ℚ) * (9 / 100)) ch.places sm).2 := by
              rw [addMemoryPlaces_seen_eq hk]
              intro hcon
              rcases List.mem_append.1 hcon with hcon | hcon
              · exact hin (List.mem_reverse.1 hcon)
              · exact hns hcon
            rcases ih (i + 1) _ d (by omega) (by omega) hd3 m hm pl hl hco
              hnc hns' with ⟨mp, hmp, hpl⟩
            exact ⟨mp, Or.inr hmp, hpl⟩

theorem memoryLoop_minimal {pd : PlacesData} (hk : KeyConsistent pd)
    (b : Book) (sc : List String) (N : Int) :
    ∀ (fuel i : Nat) (sm : List String),
      ∀ mp ∈ (memoryLoop pd b sc N i fuel sm).1,
        ∀ d' : Nat, i ≤ d' → d' < i + fuel → 1 ≤ N - (d' : Int) →
          (∃ m ∈ chapterMentions b (N - (d' : Int)), m.placeId = mp.place.id) →
          ∃ dm : Nat, i ≤ dm ∧ dm ≤ d' ∧
            mp.memoryChapter = some (N - (dm : Int)) ∧
            mp.opacity = 1 - (dm : ℚ) * (9 / 100) := by
  intro fuel
  induction fuel with
  | zero => intro i sm mp h; simp [memoryLoop] at h
  | succ fuel ih =>
    intro i sm mp h d' hd1 hd2 hd3 hment
    rw [memoryLoop] at h
    split at h
    case isTrue hbr => simp at h
    case isFalse hbr =>
      split at h
      case h_1 hch =>
        by_cases hdi : d' = i
        · exfalso
          subst hdi
          rcases hment with ⟨m, hm, _⟩
          rw [chapterMentions, hch] at hm
          cases hm
        · rcases ih (i + 1) sm mp h d' (by omega) (by omega) hd3 hment with
            ⟨dm, h1, h2, h3, h4⟩
          exact ⟨dm, by omega, h2, h3, h4⟩
      case h_2 ch hch =>
        simp only [List.mem_append] at h
        rcases h with h | h
        · rcases addMemoryPlaces_sound pd sc _ _ ch.places sm mp h with
            ⟨h1, h2, _⟩
          exact ⟨i, le_refl i, hd1, h2, h1⟩
        · by_cases hdi : d' = i
          · exfalso
            subst hdi
            rcases hment with ⟨m, hm, hmid⟩
            have hm' : m ∈ ch.places := by
              rw [chapterMentions, hch] at hm
              exact hm
            rcases memoryLoop_sound hk b sc N fuel (d' + 1)
              (addMemoryPlaces pd sc (N - (d' : Int))
                (1 - (d' : ℚ) * (9 / 100)) ch.places sm).2 mp h with
              ⟨d, _, _, _, _, _, hlk, hco, _, hnc, hnm⟩
            have hns : m.placeId ∉ sm := by
              intro hcon
              apply hnm
              rw [addMemoryPlaces_seen_eq hk]
              apply List.mem_append_right
              rw [← hmid]
              exact hcon
            have hlk' : lookupPlace pd m.placeId = some mp.place := by
              rw [hmid]
              exact hlk
            have hnc' : m.placeId ∉ sc := by
              rw [hmid]
              exact hnc
            rcases addMemoryPlaces_complete pd sc (N - (d' : Int))
              (1 - (d' : ℚ) * (9 / 100)) ch.places sm m hm'
              mp.place hlk' hco hnc' hns with ⟨mp', hmp', hpl⟩
            apply hnm
            rw [addMemoryPlaces_seen_eq hk]
            apply List.mem_append_left
            apply List.mem_reverse.2
            apply List.mem_map.2
            exact ⟨mp', hmp', by rw [hpl]⟩
          · rcases ih (i + 1) _ mp h d' (by omega) (by omega) hd3 hment with
              ⟨dm, h1, h2, h3, h4⟩
            exact ⟨dm, by omega, h2, h3, h4⟩

/-! ### Characterization of the selector output -/

theorem getMemoryPlaces_current_def (pd : PlacesData) (b : Book) (N : Int) :
    (getMemoryPlaces pd b N).current =
      (addCurrentPlaces pd (chapterMentions b N) []).1 := rfl

theorem getMemoryPlaces_memory_def (pd : PlacesData) (b : Book) (N : Int) :
    (getMemoryPlaces pd b N).memory =
      (memoryLoop pd b (addCurrentPlaces pd (chapterMentions b N) []).2 N 1
        MEMORY_WINDOW []).1 := rfl

theorem getMemoryPlaces_sc {pd : PlacesData} (hk : KeyConsistent pd)
    (b : Book) (N : Int) :
    (addCurrentPlaces pd (chapterMentions b N) []).2 =
      (currentIds (getMemoryPlaces pd b N)).reverse := by
  rw [addCurrentPlaces_seen_eq hk, List.append_nil]
  rfl

theorem opacity_bounds (d : Nat) (h1 : 1 ≤ d) (h2 : d ≤ 10) :
    0 < 1 - (d : ℚ) * (9 / 100) ∧ 1 - (d : ℚ) * (9 / 100) ≤ 1 := by
  have hd : (d : ℚ) ≤ 10 := by exact_mod_cast h2
  have hd1 : (1 : ℚ) ≤ (d : ℚ) := by exact_mod_cast h1
  constructor
  · nlinarith
  · nlinarith

/-- Full characterization of `getMemoryPlaces`: `current` holds exactly
the distinct coordinate-bearing places of chapter `N` at opacity `1`;
`memory` holds exactly the distinct coordinate-bearing places of the
chapters `N - 1 .. N - 10` with index at least `1` that are not in
`current`, annotated with `opacity = 1 - d * 0.09` and the originating
chapter `N - d`; the two sets are disjoint. -/
def C1Prop (pd : PlacesData) (b : Book) (N : Int) : Prop :=
  (∀ mp ∈ (getMemoryPlaces pd b N).current,
      mp.opacity = 1 ∧ mp.memoryChapter = none ∧
      lookupPlace pd mp.place.id = some mp.place ∧ hasCoords mp.place = true ∧
      ∃ m ∈ chapterMentions b N, m.placeId = mp.place.id) ∧
  (∀ m ∈ chapterMentions b N, ∀ pl, lookupPlace pd m.placeId = some pl →
      hasCoords pl = true →
      ∃ mp ∈ (getMemoryPlaces pd b N).current, mp.place = pl) ∧
  (currentIds (getMemoryPlaces pd b N)).Nodup ∧
  (∀ mp ∈ (getMemoryPlaces pd b N).memory,
      ∃ d : Nat, 1 ≤ d ∧ d ≤ MEMORY_WINDOW ∧ 1 ≤ N - (d : Int) ∧
        mp.opacity = 1 - (d : ℚ) * (9 / 100) ∧
        mp.memoryChapter = some (N - (d : Int)) ∧
        lookupPlace pd mp.place.id = some mp.place ∧
        hasCoords mp.place = true ∧
        (∃ m ∈ chapterMentions b (N - (d : Int)), m.placeId = mp.place.id) ∧
        mp.place.id ∉ currentIds (getMemoryPlaces pd b N)) ∧
  (∀ d : Nat, 1 ≤ d → d ≤ MEMORY_WINDOW → 1 ≤ N - (d : Int) →
      ∀ m ∈ chapterMentions b (N - (d : Int)), ∀ pl,
        lookupPlace pd m.placeId = some pl → hasCoords pl = true →
        pl.id ∉ currentIds (getMemoryPlaces pd b N) →
        ∃ mp ∈ (getMemoryPlaces pd b N).memory, mp.place = pl) ∧
  (memoryIds (getMemoryPlaces pd b N)).Nodup

/-- Claim C1: for every chapter index `N`, the selector returns two
disjoint sets; `current` is exactly the set of distinct
coordinate-bearing places mentioned in chapter `N`, each at opacity
`1.0`, and `memory` is exactly the set of distinct coordinate-bearing
places mentioned in chapters `N - 1` down to `N - 10` that are not in
`current`, each annotated with `opacity = 1.0 - distance * 0.09` and its
originating chapter; chapters with index below `1` are never
consulted. -/
theorem claims_C1 (pd : PlacesData) (b : Book) (N : Int)
    (hk : KeyConsistent pd) : C1Prop pd b N := by
  have hW : MEMORY_WINDOW = 10 := rfl
  have hsc := getMemoryPlaces_sc hk b N
  refine ⟨?_, ?_, ?_, ?_, ?_, ?_⟩
  · intro mp h
    rw [getMemoryPlaces_current_def] at h
    rcases addCurrentPlaces_sound pd _ _ mp h with ⟨h1, h2, m, hm, h3, h4⟩
    have hid : mp.place.id = m.placeId := lookupPlace_id hk h3
    exact ⟨h1, h2, by rw [hid]; exact h3, h4, m, hm, hid.symm⟩
  · intro m hm pl hl hco
    rw [getMemoryPlaces_current_def]
    exact addCurrentPlaces_complete pd _ [] m hm pl hl hco (List.not_mem_nil _)
  · have hnd := addCurrentPlaces_seen_nodup pd (chapterMentions b N) []
      List.nodup_nil
    rw [hsc] at hnd
    exact List.nodup_reverse.1 hnd
  · intro mp h
    rw [getMemoryPlaces_memory_def] at h
    rcases memoryLoop_sound hk b
      (addCurrentPlaces pd (chapterMentions b N) []).2 N MEMORY_WINDOW 1 []
      mp h with ⟨d, hd1, hd2, hd3, hd4, hd5, hd6, hd7, hd8, hd9, _⟩
    refine ⟨d, hd1, by rw [hW] at hd2 ⊢; omega, hd3, hd4, hd5, hd6, hd7,
      hd8, ?_⟩
    intro hcon
    apply hd9
    rw [hsc]
    exact List.mem_reverse.2 hcon
  · intro d hd1 hd2 hd3 m hm pl hl hco hnc
    rw [getMemoryPlaces_memory_def]
    have hpid : pl.id = m.placeId := lookupPlace_id hk hl
    refine memoryLoop_complete hk b
      (addCurrentPlaces pd (chapterMentions b N) []).2 N MEMORY_WINDOW 1 []
      d hd1 (by rw [hW] at hd2 ⊢; omega) hd3 m hm pl hl hco ?_
      (List.not_mem_nil _)
    intro hcon
    apply hnc
    rw [hsc] at hcon
    rw [hpid]
    exact List.mem_reverse.1 hcon
  · have hnd := memoryLoop_seen_nodup pd b
      (addCurrentPlaces pd (chapterMentions b N) []).2 N MEMORY_WINDOW 1 []
      List.nodup_nil
    rw [memoryLoop_seen_eq hk, List.append_nil] at hnd
    exact List.nodup_reverse.1 hnd

/-! ### The text-annotation round trip -/

/-- The non-overlap invariant of a mention list: each mention spans a
well-formed range and consecutive mentions do not overlap. -/
def MentionsOrdered (ms : List Mention) : Prop :=
  (∀ m ∈ ms, m.startOffset ≤ m.endOffset) ∧
  ms.Chain' (fun a b => a.endOffset ≤ b.startOffset)

/-- Executable version of `MentionsOrdered`. -/
def mentionsOrderedB : List Mention → Bool
  | [] => true
  | [m] => decide (m.startOffset ≤ m.endOffset)
  | m :: n :: rest =>
    decide (m.startOffset ≤ m.endOffset)
      && decide (m.endOffset ≤ n.startOffset)
      && mentionsOrderedB (n :: rest)

theorem mentionsOrdered_head_le :
    ∀ (ms : List Mention) (m : Mention), MentionsOrdered (m :: ms) →
      ∀ x ∈ ms, m.endOffset ≤ x.startOffset := by
  intro ms
  induction ms with
  | nil => intro m h x hx; cases hx
  | cons b rest ih =>
    intro m h x hx
    have hmb : m.endOffset ≤ b.startOffset := (List.chain'_cons.1 h.2).1
    rcases List.mem_cons.1 hx with hx | hx
    · subst hx; exact hmb
    · have hb : MentionsOrdered (b :: rest) :=
        ⟨fun y hy => h.1 y (List.mem_cons_of_mem _ hy),
          (List.chain'_cons.1 h.2).2⟩
      have hbx := ih b hb x hx
      have hbb : b.startOffset ≤ b.endOffset :=
        h.1 b (List.mem_cons_of_mem _ (List.mem_cons_self _ _))
      omega

theorem mentionsOrdered_tail {m : Mention} {ms : List Mention}
    (h : MentionsOrdered (m :: ms)) : MentionsOrdered ms :=
  ⟨fun y hy => h.1 y (List.mem_cons_of_mem _ hy), h.2.tail⟩

theorem mentionsOrderedB_iff : ∀ ms : List Mention,
    mentionsOrderedB ms = true ↔ MentionsOrdered ms := by
  intro ms
  induction ms with
  | nil => simp [mentionsOrderedB, MentionsOrdered]
  | cons m rest ih =>
    cases rest with
    | nil => simp [mentionsOrderedB, MentionsOrdered]
    | cons n rest2 =>
      constructor
      · intro h
        rw [mentionsOrderedB] at h
        simp only [Bool.and_eq_true, decide_eq_true_eq] at h
        rcases h with ⟨⟨h1, h2⟩, h3⟩
        have hord := ih.1 h3
        refine ⟨?_, List.chain'_cons.2 ⟨h2, hord.2⟩⟩
        intro x hx
        rcases List.mem_cons.1 hx with hx | hx
        · subst hx; exact h1
        · exact hord.1 x hx
      · intro h
        rw [mentionsOrderedB]
        simp only [Bool.and_eq_true, decide_eq_true_eq]
        have hord : MentionsOrdered (n :: rest2) := mentionsOrdered_tail h
        exact ⟨⟨h.1 m (List.mem_cons_self _ _), (List.chain'_cons.1 h.2).1⟩,
          ih.2 hord⟩

instance : DecidablePred MentionsOrdered := fun ms =>
  decidable_of_iff (mentionsOrderedB ms = true) (mentionsOrderedB_iff ms)

theorem mentionsOrdered_sorted :
    ∀ ms : List Mention, MentionsOrdered ms →
      List.Sorted (fun a b : Mention => a.startOffset ≤ b.startOffset) ms := by
  intro ms
  induction ms with
  | nil => intro _; exact List.sorted_nil
  | cons m rest ih =>
    intro h
    rw [List.sorted_cons]
    refine ⟨fun x hx => ?_, ih (mentionsOrdered_tail h)⟩
    have h1 : m.startOffset ≤ m.endOffset := h.1 m (List.mem_cons_self _ _)
    have h2 := mentionsOrdered_head_le rest m h x hx
    omega

theorem sortMentions_eq_self (ms : List Mention) (h : MentionsOrdered ms) :
    sortMentions ms = ms :=
  List.Sorted.insertionSort_eq (mentionsOrdered_sorted ms h)

theorem slice_append_slice (l : List Char) {a b c : Nat} (h1 : a ≤ b)
    (h2 : b ≤ c) :
    (l.drop a).take (b - a) ++ (l.drop b).take (c - b) =
      (l.drop a).take (c - a) := by
  have hdrop : l.drop b = (l.drop a).drop (b - a) := by
    rw [List.drop_drop]
    congr 1
    omega
  rw [hdrop, ← List.take_add]
  congr 1
  omega

theorem slice_append_drop (l : List Char) {a b : Nat} (h : a ≤ b) :
    (l.drop a).take (b - a) ++ l.drop b = l.drop a := by
  have hdrop : l.drop b = (l.drop a).drop (b - a) := by
    rw [List.drop_drop]
    congr 1
    omega
  rw [hdrop, List.take_append_drop]

theorem concatSegments_cons (s : TextSegment) (l : List TextSegment) :
    concatSegments (s :: l) = renderSegment s ++ concatSegments l := rfl

theorem concatSegments_nil : concatSegments [] = "" := rfl

theorem data_append (s t : String) : (s ++ t).data = s.data ++ t.data := rfl

theorem annotateSegments_concat (pd : PlacesData) (sel : Option String)
    (hi : List String) (text : String) :
    ∀ (ms : List Mention) (lastEnd : Nat),
      MentionsOrdered ms →
      (∀ m ∈ ms, m.name = jsSlice text m.startOffset m.endOffset) →
      (∀ m0, ms.head? = some m0 → lastEnd ≤ m0.startOffset) →
      (concatSegments (annotateSegments pd sel hi text ms lastEnd)).data =
        text.data.drop lastEnd := by
  intro ms
  induction ms with
  | nil =>
    intro lastEnd _ _ _
    rw [annotateSegments]
    split
    case isTrue hlt =>
      rw [concatSegments_cons, concatSegments_nil, data_append]
      simp [renderSegment, jsSliceFrom]
    case isFalse hlt =>
      rw [concatSegments_nil]
      have hlen : text.data.length ≤ lastEnd := not_lt.1 hlt
      rw [List.drop_eq_nil_of_le hlen]
  | cons m rest ih =>
    intro lastEnd hord hnames hfirst
    have hle1 : lastEnd ≤ m.startOffset := hfirst m rfl
    have hle2 : m.startOffset ≤ m.endOffset := hord.1 m (List.mem_cons_self _ _)
    have hrest : (concatSegments (annotateSegments pd sel hi text rest
        m.endOffset)).data = text.data.drop m.endOffset := by
      refine ih m.endOffset (mentionsOrdered_tail hord)
        (fun x hx => hnames x (List.mem_cons_of_mem _ hx)) ?_
      intro m0 hm0
      have : m0 ∈ rest := by
        cases rest with
        | nil => cases hm0
        | cons y ys =>
          rw [List.head?_cons] at hm0
          rw [Option.some_inj.1 hm0]
          exact List.mem_cons_self _ _
      exact mentionsOrdered_head_le rest m hord m0 this
    have hname : m.name = jsSlice text m.startOffset m.endOffset :=
      hnames m (List.mem_cons_self _ _)
    rw [annotateSegments]
    split
    case isTrue hlt =>
      rw [List.cons_append, List.nil_append, concatSegments_cons,
        concatSegments_cons, data_append, data_append, hrest]
      simp only [renderSegment, jsSlice, hname]
      rw [slice_append_drop text.data hle2]
      exact slice_append_drop text.data hle1
    case isFalse hlt =>
      have heq : lastEnd = m.startOffset := by omega
      rw [List.nil_append, concatSegments_cons, data_append, hrest]
      simp only [renderSegment, hname, jsSlice]
      rw [heq]
      exact slice_append_drop text.data hle2

theorem annotateSegments_place_mem (pd : PlacesData) (sel : Option String)
    (hi : List String) (text : String) :
    ∀ (ms : List Mention) (lastEnd : Nat), ∀ m ∈ ms,
      TextSegment.place m.placeId m.name (hasCoordsKey pd m.placeId)
        (decide (sel = some m.placeId)) (hi.contains m.placeId) ∈
        annotateSegments pd sel hi text ms lastEnd := by
  intro ms
  induction ms with
  | nil => intro lastEnd m hm; cases hm
  | cons m0 rest ih =>
    intro lastEnd m hm
    rw [annotateSegments]
    rcases List.mem_cons.1 hm with hm | hm
    · subst hm
      exact List.mem_append_right _ (List.mem_cons_self _ _)
    · exact List.mem_append_right _
        (List.mem_cons_of_mem _ (ih m0.endOffset m hm))

theorem memoryLoop_hasCoords (pd : PlacesData) (b : Book)
    (sc : List String) (N : Int) :
    ∀ (fuel i : Nat) (sm : List String),
      ∀ mp ∈ (memoryLoop pd b sc N i fuel sm).1,
        hasCoords mp.place = true := by
  intro fuel
  induction fuel with
  | zero => intro i sm mp h; simp [memoryLoop] at h
  | succ fuel ih =>
    intro i sm mp h
    rw [memoryLoop] at h
    split at h
    case isTrue hbr => simp at h
    case isFalse hbr =>
      split at h
      case h_1 hch => exact ih (i + 1) sm mp h
      case h_2 ch hch =>
        simp only [List.mem_append] at h
        rcases h with h | h
        · rcases addMemoryPlaces_sound pd sc _ _ ch.places sm mp h with
            ⟨_, _, _, _, _, h4, _⟩
          exact h4
        · exact ih (i + 1) _ mp h

/-! ### Claim theorems: text annotation -/

/-- Claim C2 (amended): for every chapter and mention list with
non-overlapping increasing offsets in which every mention name equals
the text slice between its offsets, concatenating the rendered segment
contents reproduces the chapter text exactly. -/
theorem claims_C2 (pd : PlacesData) (sel : Option String) (hi : List String)
    (ch : Chapter) (hord : MentionsOrdered ch.places)
    (hnames : ∀ m ∈ ch.places,
      m.name = jsSlice ch.text m.startOffset m.endOffset) :
    concatSegments (annotatedText pd sel hi ch) = ch.text := by
  unfold annotatedText
  rw [sortMentions_eq_self ch.places hord]
  apply String.ext
  rw [annotateSegments_concat pd sel hi ch.text ch.places 0 hord hnames
    (fun m0 _ => Nat.zero_le _)]
  exact List.drop_zero _

/-- Concrete chapter refuting C2 as stated: the mention name differs
from the text slice between its offsets. -/
def c2Chapter : Chapter := ⟨1, "ab", [⟨"x", "X", 0, 1⟩]⟩

/-- Claim C2 as stated is false: segment content is the mention name
(`place.name`), not the text slice, so a mention list whose offsets are
ordered but whose name differs from the spanned slice breaks the round
trip. -/
theorem claims_C2_counterexample :
    MentionsOrdered c2Chapter.places ∧
    concatSegments (annotatedText [] none [] c2Chapter) ≠ c2Chapter.text := by
  decide

/-- Concrete chapter in which each mention name matches its slice. -/
def c2wChapter : Chapter :=
  ⟨1, "In Athens they met.", [⟨"athens", "Athens", 3, 9⟩]⟩

/-- Witness for the amended claim C2 at a chapter whose mention name matches its slice. -/
theorem claims_C2_witness :
    MentionsOrdered c2wChapter.places ∧
    (∀ m ∈ c2wChapter.places,
      m.name = jsSlice c2wChapter.text m.startOffset m.endOffset) ∧
    concatSegments (annotatedText [] none [] c2wChapter) = c2wChapter.text :=
  ⟨by decide, by decide,
    claims_C2 [] none [] c2wChapter (by decide) (by decide)⟩

/-! ### Claim theorems: coordinate-less places -/

/-- Claim C5: a place record lacking coordinates never appears in the
`current` or `memory` set for any chapter, while each of its in-text
mentions still yields a place segment marked as lacking coordinates. -/
theorem claims_C5 (pd : PlacesData) (b : Book) (N : Int)
    (sel : Option String) (hi : List String) (ch : Chapter)
    (k : String) (pl : Place)
    (hlk : lookupPlace pd k = some pl) (hco : hasCoords pl = false) :
    (∀ mp ∈ (getMemoryPlaces pd b N).current, mp.place ≠ pl) ∧
    (∀ mp ∈ (getMemoryPlaces pd b N).memory, mp.place ≠ pl) ∧
    (∀ m ∈ ch.places, m.placeId = k →
      TextSegment.place k m.name false (decide (sel = some k))
        (hi.contains k) ∈ annotatedText pd sel hi ch) := by
  have hckey : hasCoordsKey pd k = false := by
    unfold hasCoordsKey
    rw [hlk]
    exact hco
  refine ⟨?_, ?_, ?_⟩
  · intro mp h heq
    rw [getMemoryPlaces_current_def] at h
    rcases addCurrentPlaces_sound pd _ _ mp h with ⟨_, _, _, _, _, h4⟩
    rw [heq, hco] at h4
    exact Bool.noConfusion h4
  · intro mp h heq
    rw [getMemoryPlaces_memory_def] at h
    have h4 := memoryLoop_hasCoords pd b
      (addCurrentPlaces pd (chapterMentions b N) []).2 N MEMORY_WINDOW 1 [] mp h
    rw [heq, hco] at h4
    exact Bool.noConfusion h4
  · intro m hm hmid
    have hmem := annotateSegments_place_mem pd sel hi ch.text
      (sortMentions ch.places) 0 m (by simp [sortMentions, hm])
    rw [hmid, hckey] at hmem
    exact hmem

/-! ### Claim theorems: opacity values -/

/-- Claim C6: a coordinate-bearing place mentioned in chapter 1 and not
in chapters 2 through 5 gets, at current chapter 5, a memory entry with
opacity exactly `1.0 - 4 * 0.09 = 0.64` originating from chapter 1. -/
theorem claims_C6 (pd : PlacesData) (b : Book) (k : String) (pl : Place)
    (hk : KeyConsistent pd) (hlk : lookupPlace pd k = some pl)
    (hco : hasCoords pl = true)
    (hm1 : ∃ m ∈ chapterMentions b 1, m.placeId = k)
    (habs : ∀ c : Int, 2 ≤ c → c ≤ 5 →
      ∀ m ∈ chapterMentions b c, m.placeId ≠ k) :
    ∃ mp ∈ (getMemoryPlaces pd b 5).memory,
      mp.place = pl ∧ mp.opacity = 64 / 100 ∧ mp.memoryChapter = some 1 := by
  have hW : MEMORY_WINDOW = 10 := rfl
  have hpid : pl.id = k := lookupPlace_id hk hlk
  have hsc := getMemoryPlaces_sc hk b 5
  have hncur : k ∉ currentIds (getMemoryPlaces pd b 5) := by
    intro hcon
    rcases List.mem_map.1 hcon with ⟨mp, hmp, hmpid⟩
    rw [getMemoryPlaces_current_def] at hmp
    rcases addCurrentPlaces_sound pd _ _ mp hmp with ⟨_, _, m, hm, h3, _⟩
    have hid : mp.place.id = m.placeId := lookupPlace_id hk h3
    apply habs 5 (by omega) (by omega) m hm
    rw [← hid, hmpid]
  rcases hm1 with ⟨m1, hm1m, hm1id⟩
  have hlk' : lookupPlace pd m1.placeId = some pl := by
    rw [hm1id]
    exact hlk
  have hment1 : m1 ∈ chapterMentions b ((5 : Int) - ((4 : Nat) : Int)) := by
    norm_num
    exact hm1m
  have hnc : m1.placeId ∉ (addCurrentPlaces pd (chapterMentions b 5) []).2 := by
    rw [hsc]
    intro hcon
    have hmem := List.mem_reverse.1 hcon
    rw [hm1id] at hmem
    exact hncur hmem
  have hcomp := memoryLoop_complete hk b
    (addCurrentPlaces pd (chapterMentions b 5) []).2 5 MEMORY_WINDOW 1 []
    4 (by omega) (by rw [hW]; omega) (by norm_num) m1 hment1 pl hlk' hco
    hnc (List.not_mem_nil _)
  rcases hcomp with ⟨mp, hmp, hmppl⟩
  have hmp' : mp ∈ (getMemoryPlaces pd b 5).memory := by
    rw [getMemoryPlaces_memory_def]
    exact hmp
  rcases memoryLoop_sound hk b
    (addCurrentPlaces pd (chapterMentions b 5) []).2 5 MEMORY_WINDOW 1 []
    mp hmp with ⟨d, hd1, hd2, hd3, hd4, hd5, _, _, hd8, _, _⟩
  by_cases hdd : d = 4
  · subst hdd
    refine ⟨mp, hmp', hmppl, ?_, ?_⟩
    · rw [hd4]
      norm_num
    · rw [hd5]
      decide
  · exfalso
    rcases hd8 with ⟨m2, hm2, hm2id⟩
    have hmpid : mp.place.id = pl.id := by
      rw [hmppl]
    apply habs (5 - (d : Int)) (by omega) (by omega) m2 hm2
    rw [hm2id, hmpid, hpid]

/-! ### Claim theorems: memory-set size and opacity range -/

/-- Amended form of claim C3: the memory entries are pairwise-distinct
places drawn from at most the 10 chapters `N - 10 .. N - 1` (their
count is not bounded by 10), and every entry has opacity in `(0, 1]`. -/
def C3Prop (pd : PlacesData) (b : Book) (N : Int) : Prop :=
  (memoryIds (getMemoryPlaces pd b N)).Nodup ∧
  ∀ mp ∈ (getMemoryPlaces pd b N).memory,
    0 < mp.opacity ∧ mp.opacity ≤ 1 ∧
    ∃ d : Nat, 1 ≤ d ∧ d ≤ MEMORY_WINDOW ∧ 1 ≤ N - (d : Int) ∧
      mp.memoryChapter = some (N - (d : Int))

/-- Claim C3 (amended): for chapter indices above 10, the memory set
consists of pairwise-distinct places originating from the 10 chapters
`N - 10 .. N - 1`, each with opacity strictly greater than 0 and at
most 1; the number of places is not bounded by 10. -/
theorem claims_C3 (pd : PlacesData) (b : Book) (N : Int)
    (hk : KeyConsistent pd) (hN : 10 < N) : C3Prop pd b N := by
  have hW : MEMORY_WINDOW = 10 := rfl
  constructor
  · have hnd := memoryLoop_seen_nodup pd b
      (addCurrentPlaces pd (chapterMentions b N) []).2 N MEMORY_WINDOW 1 []
      List.nodup_nil
    rw [memoryLoop_seen_eq hk, List.append_nil] at hnd
    exact List.nodup_reverse.1 hnd
  · intro mp h
    rw [getMemoryPlaces_memory_def] at h
    rcases memoryLoop_sound hk b
      (addCurrentPlaces pd (chapterMentions b N) []).2 N MEMORY_WINDOW 1 []
      mp h with ⟨d, hd1, hd2, hd3, hd4, hd5, _⟩
    have hd10 : d ≤ 10 := by
      rw [hW] at hd2
      omega
    rcases opacity_bounds d hd1 hd10 with ⟨hb1, hb2⟩
    rw [← hd4] at hb1 hb2
    exact ⟨hb1, hb2, d, hd1, by rw [hW]; omega, hd3, hd5⟩

/-- One of eleven identical coordinate-bearing gazetteer entries used to
refute the size bound of C3. -/
def c3Place (k : String) : Place := ⟨k, k, some 1, some 1, []⟩

def c3PlacesData : PlacesData :=
  [("a", c3Place "a"), ("b", c3Place "b"), ("c", c3Place "c"),
   ("d", c3Place "d"), ("e", c3Place "e"), ("f", c3Place "f"),
   ("g", c3Place "g"), ("h", c3Place "h"), ("i", c3Place "i"),
   ("j", c3Place "j"), ("k", c3Place "k")]

def c3Mention (k : String) : Mention := ⟨k, k, 0, 1⟩

def c3Book : Book := ⟨[⟨10, "x",
  [c3Mention "a", c3Mention "b", c3Mention "c", c3Mention "d",
   c3Mention "e", c3Mention "f", c3Mention "g", c3Mention "h",
   c3Mention "i", c3Mention "j", c3Mention "k"]⟩]⟩

/-- Claim C3 as stated is false: at chapter 11 a single memory chapter
(chapter 10) contributes 11 distinct places, so the memory set is not
bounded by 10 entries. -/
theorem claims_C3_counterexample :
    10 < (11 : Int) ∧
    (memoryIds (getMemoryPlaces c3PlacesData c3Book 11)).Nodup ∧
    ¬ ((getMemoryPlaces c3PlacesData c3Book 11).memory.length ≤ 10) := by
  decide

/-! ### Claim theorems: most-recent occurrence wins -/

/-- The tie-break property of the memory set: each place occurs at most
once, every eligible windowed place not in `current` is present, and
each entry carries the opacity and originating chapter of its smallest
eligible distance. -/
def C4Prop (pd : PlacesData) (b : Book) (N : Int) : Prop :=
  (memoryIds (getMemoryPlaces pd b N)).Nodup ∧
  (∀ d : Nat, 1 ≤ d → d ≤ MEMORY_WINDOW → 1 ≤ N - (d : Int) →
      ∀ m ∈ chapterMentions b (N - (d : Int)), ∀ pl,
        lookupPlace pd m.placeId = some pl → hasCoords pl = true →
        pl.id ∉ currentIds (getMemoryPlaces pd b N) →
        ∃ mp ∈ (getMemoryPlaces pd b N).memory, mp.place = pl) ∧
  (∀ mp ∈ (getMemoryPlaces pd b N).memory,
      ∃ dm : Nat, 1 ≤ dm ∧ dm ≤ MEMORY_WINDOW ∧ 1 ≤ N - (dm : Int) ∧
        mp.memoryChapter = some (N - (dm : Int)) ∧
        mp.opacity = 1 - (dm : ℚ) * (9 / 100) ∧
        (∃ m ∈ chapterMentions b (N - (dm : Int)), m.placeId = mp.place.id) ∧
        ∀ d' : Nat, 1 ≤ d' → d' ≤ MEMORY_WINDOW → 1 ≤ N - (d' : Int) →
          (∃ m ∈ chapterMentions b (N - (d' : Int)),
            m.placeId = mp.place.id) → dm ≤ d')

/-- Claim C4: a place recurring across several memory chapters (and not
in the current chapter) appears in the memory set exactly once, with
the opacity and originating chapter of its most recent occurrence,
i.e. of the smallest distance from `N`. -/
theorem claims_C4 (pd : PlacesData) (b : Book) (N : Int)
    (hk : KeyConsistent pd) : C4Prop pd b N := by
  have hW : MEMORY_WINDOW = 10 := rfl
  have hsc := getMemoryPlaces_sc hk b N
  refine ⟨?_, ?_, ?_⟩
  · have hnd := memoryLoop_seen_nodup pd b
      (addCurrentPlaces pd (chapterMentions b N) []).2 N MEMORY_WINDOW 1 []
      List.nodup_nil
    rw [memoryLoop_seen_eq hk, List.append_nil] at hnd
    exact List.nodup_reverse.1 hnd
  · intro d hd1 hd2 hd3 m hm pl hl hco hnc
    rw [getMemoryPlaces_memory_def]
    have hpid : pl.id = m.placeId := lookupPlace_id hk hl
    refine memoryLoop_complete hk b
      (addCurrentPlaces pd (chapterMentions b N) []).2 N MEMORY_WINDOW 1 []
      d hd1 (by rw [hW] at hd2 ⊢; omega) hd3 m hm pl hl hco ?_
      (List.not_mem_nil _)
    intro hcon
    apply hnc
    rw [hsc] at hcon
    rw [hpid]
    exact List.mem_reverse.1 hcon
  · intro mp h
    rw [getMemoryPlaces_memory_def] at h
    rcases memoryLoop_sound hk b
      (addCurrentPlaces pd (chapterMentions b N) []).2 N MEMORY_WINDOW 1 []
      mp h with ⟨dm, hd1, hd2, hd3, hd4, hd5, _, _, hd8, _, _⟩
    refine ⟨dm, hd1, by rw [hW] at hd2 ⊢; omega, hd3, hd5, hd4, hd8, ?_⟩
    intro d' hd'1 hd'2 hd'3 hment
    rcases memoryLoop_minimal hk b
      (addCurrentPlaces pd (chapterMentions b N) []).2 N MEMORY_WINDOW 1 []
      mp h d' hd'1 (by rw [hW] at hd'2 ⊢; omega) hd'3 hment with
      ⟨dm', _, hdm'2, hdm'3, _⟩
    rw [hd5] at hdm'3
    have heqI : N - (dm : Int) = N - (dm' : Int) := Option.some_inj.1 hdm'3
    have heq : dm = dm' := by omega
    omega

/-! ### Claim theorems: click handlers -/

/-- Claim C7, evaluated at a failing input: in the shipped
`ReadingView`, a map-marker click only navigates to the place-detail
route and leaves the selection state untouched, so it does not produce
the highlighted state that a text click produces; the earlier
`ReadingView` variant made both handlers agree. -/
theorem claims_C7_eval :
    handlePlaceClick "athens" ⟨none, []⟩ = ⟨some "athens", ["athens"]⟩ ∧
    handleMapPlaceClick "athens" ⟨none, []⟩ =
      (⟨none, []⟩, NavTarget.placeDetail "athens") ∧
    (handleMapPlaceClick "athens" ⟨none, []⟩).1 ≠
      handlePlaceClick "athens" ⟨none, []⟩ ∧
    handleMapPlaceClickVariant "athens" ⟨none, []⟩ =
      handlePlaceClick "athens" ⟨none, []⟩ := by
  decide

/-! ### Claim theorems: Greek-text fetch -/

theorem cacheLookup_insert_self (c : GreekCache) (k : Int) (v : String) :
    cacheLookup (cacheInsert c k v) k = some v := by
  induction c with
  | nil => simp [cacheInsert, cacheLookup]
  | cons e rest ih =>
    rw [cacheInsert]
    split
    case isTrue h => simp [cacheLookup]
    case isFalse h =>
      have hfalse : (e.1 == k) = false := by
        cases hv : e.1 == k with
        | true => exact absurd hv h
        | false => rfl
      unfold cacheLookup at ih ⊢
      simp only [List.find?_cons, hfalse]
      exact ih

theorem cacheLookup_insert_other (c : GreekCache) (k other : Int)
    (v : String) (h : other ≠ k) :
    cacheLookup (cacheInsert c k v) other = cacheLookup c other := by
  have hko : (k == other) = false := by
    cases hv : k == other with
    | true => exact absurd (beq_iff_eq.1 hv).symm h
    | false => rfl
  induction c with
  | nil => simp [cacheInsert, cacheLookup, hko]
  | cons e rest ih =>
    rw [cacheInsert]
    split
    case isTrue hek =>
      have he : e.1 = k := beq_iff_eq.1 hek
      have h2 : (e.1 == other) = false := by
        rw [he]
        exact hko
      unfold cacheLookup
      simp only [List.find?_cons, hko, h2]
    case isFalse hek =>
      unfold cacheLookup at ih ⊢
      simp only [List.find?_cons]
      cases hv : e.1 == other with
      | true => rfl
      | false => exact ih

/-- Claim C8 as stated is false: after a failed fetch the error string
is cached like a success, so neither the effect nor re-toggling the
language ever triggers a new fetch for that chapter. -/
theorem claims_C8_counterexample :
    renderGreekPane (fetchGreekText 3 .err []) 3 = greekErrorMessage ∧
    (handleLanguageToggle .greek (fetchGreekText 3 .err []) 3).2 = false ∧
    (handleLanguageToggle .english (fetchGreekText 3 .err []) 3).2 = false ∧
    greekEffectShouldFetch .greek (fetchGreekText 3 .err []) 3 = false := by
  decide

/-- Claim C8 (amended): when the Greek-text fetch for a chapter fails,
the inline error message is stored and rendered for that chapter and the
failure is absorbed into view state; no automatic retry occurs, and
re-toggling the language view does not retry either: the cached error
placeholder suppresses every further fetch for that chapter while the
view stays mounted (only remounting the view clears the cache). -/
theorem claims_C8 (chapter : Int) (cache : GreekCache) (lang : ViewLanguage) :
    cacheLookup (fetchGreekText chapter .err cache) chapter =
      some greekErrorMessage ∧
    renderGreekPane (fetchGreekText chapter .err cache) chapter =
      greekErrorMessage ∧
    greekEffectShouldFetch lang (fetchGreekText chapter .err cache) chapter
      = false ∧
    (handleLanguageToggle lang (fetchGreekText chapter .err cache)
      chapter).2 = false := by
  have hlook : cacheLookup (fetchGreekText chapter .err cache) chapter =
      some greekErrorMessage :=
    cacheLookup_insert_self cache chapter greekErrorMessage
  refine ⟨hlook, ?_, ?_, ?_⟩
  · unfold renderGreekPane
    rw [hlook]
    simp [greekErrorMessage]
  · simp [greekEffectShouldFetch, hlook, truthyStr, greekErrorMessage]
  · simp [handleLanguageToggle, hlook, truthyStr, greekErrorMessage]

/-- Claim C9: the Greek-text retrieval is fetch-once memoized per
chapter: once any outcome is cached for a chapter, neither the effect
nor the language toggle triggers another fetch for it, and the fetch
leaves every other chapter entry of the cache unchanged. -/
theorem claims_C9 (chapter : Int) (outcome : FetchOutcome)
    (cache : GreekCache) (lang : ViewLanguage) :
    truthyStr (cacheLookup (fetchGreekText chapter outcome cache) chapter)
      = true ∧
    greekEffectShouldFetch lang (fetchGreekText chapter outcome cache)
      chapter = false ∧
    (handleLanguageToggle lang (fetchGreekText chapter outcome cache)
      chapter).2 = false ∧
    ∀ other : Int, other ≠ chapter →
      cacheLookup (fetchGreekText chapter outcome cache) other =
        cacheLookup cache other := by
  obtain ⟨v, hfe, hne⟩ : ∃ v, fetchGreekText chapter outcome cache =
      cacheInsert cache chapter v ∧ v ≠ "" := by
    cases outcome with
    | ok content =>
      by_cases hc : content = ""
      · exact ⟨greekMissingMessage, by simp [fetchGreekText, hc], by decide⟩
      · exact ⟨content, by simp [fetchGreekText, hc], hc⟩
    | err => exact ⟨greekErrorMessage, rfl, by decide⟩
  have hlook : cacheLookup (fetchGreekText chapter outcome cache) chapter =
      some v := by
    rw [hfe]
    exact cacheLookup_insert_self cache chapter v
  refine ⟨?_, ?_, ?_, ?_⟩
  · rw [hlook]
    simp [truthyStr, hne]
  · simp [greekEffectShouldFetch, hlook, truthyStr, hne]
  · simp [handleLanguageToggle, hlook, truthyStr, hne]
  · intro other hother
    rw [hfe]
    exact cacheLookup_insert_other cache chapter other v hother

/-! ### Claim theorems: co-occurrence list -/

instance : IsTotal CoPlace (fun a b => b.coCount ≤ a.coCount) :=
  ⟨fun a b => Nat.le_total b.coCount a.coCount⟩

instance : IsTrans CoPlace (fun a b => b.coCount ≤ a.coCount) :=
  ⟨fun _ _ _ hab hbc => le_trans hbc hab⟩

theorem coSort_sorted (l : List CoPlace) :
    List.Sorted (fun a b => b.coCount ≤ a.coCount) (coSort l) :=
  List.sorted_insertionSort _ l

theorem coSort_mem {l : List CoPlace} {x : CoPlace} (h : x ∈ coSort l) :
    x ∈ l := by
  simpa [coSort] using h

theorem upsertCoPlace_mem :
    ∀ (acc : List CoPlace) (e x : CoPlace), x ∈ upsertCoPlace acc e →
      x ∈ acc ∨ x = e := by
  intro acc
  induction acc with
  | nil =>
    intro e x hx
    rcases List.mem_singleton.1 hx with hx
    exact Or.inr hx
  | cons a rest ih =>
    intro e x hx
    rw [upsertCoPlace] at hx
    split at hx
    case isTrue h =>
      rcases List.mem_cons.1 hx with hx | hx
      · exact Or.inr hx
      · exact Or.inl (List.mem_cons_of_mem _ hx)
    case isFalse h =>
      rcases List.mem_cons.1 hx with hx | hx
      · exact Or.inl (hx ▸ List.mem_cons_self _ _)
      · rcases ih e x hx with hx | hx
        · exact Or.inl (List.mem_cons_of_mem _ hx)
        · exact Or.inr hx

theorem buildCoPlaces_inv (placeId : String) (keys : List (Int × Int)) :
    ∀ (entries : List (String × Place)) (acc : List CoPlace),
      (∀ e ∈ acc, e.place.id ≠ placeId ∧
        e.coCount = coCountOf keys e.place ∧ 0 < e.coCount) →
      ∀ x ∈ buildCoPlaces placeId keys entries acc,
        x.place.id ≠ placeId ∧
        x.coCount = coCountOf keys x.place ∧ 0 < x.coCount := by
  intro entries
  induction entries with
  | nil => intro acc hacc x hx; exact hacc x hx
  | cons e rest ih =>
    intro acc hacc x hx
    rw [buildCoPlaces] at hx
    split at hx
    case isTrue h => exact ih acc hacc x hx
    case isFalse h =>
      simp only [] at hx
      split at hx
      case isTrue hc =>
        refine ih _ ?_ x hx
        intro y hy
        rcases upsertCoPlace_mem acc ⟨e.2, coCountOf keys e.2⟩ y hy with
          hy | hy
        · exact hacc y hy
        · subst hy
          refine ⟨?_, rfl, hc⟩
          intro hcon
          apply h
          show (e.2.id == placeId) = true
          exact beq_iff_eq.2 hcon
      case isFalse hc => exact ih acc hacc x hx

/-- Claim C10: the co-occurrence list of a viewed place has at most 10
entries, never contains the viewed place id, every entry shares at
least one `(book, chapter)` occurrence with the viewed place, and the
entries are ordered by non-increasing co-occurrence count. -/
theorem claims_C10 (pd : PlacesData) (placeId : String) :
    (coOccurringPlaces pd placeId).length ≤ 10 ∧
    List.Pairwise (fun a b => b.coCount ≤ a.coCount)
      (coOccurringPlaces pd placeId) ∧
    ∀ e ∈ coOccurringPlaces pd placeId,
      e.place.id ≠ placeId ∧ 1 ≤ e.coCount ∧
      ∃ viewed, lookupPlace pd placeId = some viewed ∧
        ∃ occ ∈ e.place.occurrences,
          (occ.book, occ.chapter) ∈ chapterKeySet viewed := by
  unfold coOccurringPlaces
  split
  case h_1 => simp
  case h_2 place hpl =>
    refine ⟨List.length_take_le _ _, ?_, ?_⟩
    · exact List.Pairwise.sublist (List.take_sublist _ _) (coSort_sorted _)
    · intro e he
      have he2 : e ∈ buildCoPlaces placeId (chapterKeySet place) pd [] :=
        coSort_mem (List.mem_of_mem_take he)
      rcases buildCoPlaces_inv placeId (chapterKeySet place) pd []
        (fun y hy => absurd hy (List.not_mem_nil y)) e he2 with ⟨h1, h2, h3⟩
      refine ⟨h1, h3, place, hpl, ?_⟩
      rw [h2] at h3
      unfold coCountOf at h3
      rcases List.countP_pos_iff.mp h3 with ⟨occ, hocc, hp⟩
      exact ⟨occ, hocc, List.elem_iff.1 hp⟩

/-! ### Concrete witness data -/

def wAthens : Place := ⟨"athens", "Athens", some 37, some 23, [⟨1, 1⟩, ⟨1, 2⟩]⟩

def wSparta : Place := ⟨"sparta", "Sparta", some 37, some 22, [⟨1, 1⟩]⟩

def wNowhere : Place := ⟨"nowhere", "Nowhere", none, none, [⟨1, 2⟩]⟩

def wPlacesData : PlacesData :=
  [("athens", wAthens), ("sparta", wSparta), ("nowhere", wNowhere)]

def wBook : Book := ⟨[
  ⟨1, "Athens and Sparta.",
    [⟨"athens", "Athens", 0, 6⟩, ⟨"sparta", "Sparta", 11, 17⟩]⟩,
  ⟨2, "Athens again; Nowhere.",
    [⟨"athens", "Athens", 0, 6⟩, ⟨"nowhere", "Nowhere", 14, 21⟩]⟩]⟩

def wC5Chapter : Chapter := ⟨2, "Nowhere.", [⟨"nowhere", "Nowhere", 0, 7⟩]⟩

def wC6Book : Book := ⟨[
  ⟨1, "Athens.", [⟨"athens", "Athens", 0, 6⟩]⟩,
  ⟨5, "Quiet.", []⟩]⟩

/-- The witness book mentions no place in chapters 2 through 5. -/
theorem wC6Book_absent : ∀ c : Int, 2 ≤ c → c ≤ 5 →
    ∀ m ∈ chapterMentions wC6Book c, m.placeId ≠ "athens" := by
  intro c h2 h5 m hm
  have hc : c = 2 ∨ c = 3 ∨ c = 4 ∨ c = 5 := by omega
  rcases hc with h | h | h | h <;> subst h <;> revert m <;> decide

/-! ### Witnesses -/

/-- Witness for claim C1 at a concrete gazetteer and book. -/
theorem claims_C1_witness : KeyConsistent wPlacesData ∧ C1Prop wPlacesData wBook 2 :=
  ⟨by decide, claims_C1 wPlacesData wBook 2 (by decide)⟩

/-- Witness for the amended claim C3 at chapter 11 of the eleven-place book. -/
theorem claims_C3_witness :
    KeyConsistent c3PlacesData ∧ 10 < (11 : Int) ∧
    C3Prop c3PlacesData c3Book 11 :=
  ⟨by decide, by decide, claims_C3 c3PlacesData c3Book 11 (by decide) (by decide)⟩

/-- Witness for claim C4 at a concrete gazetteer and book. -/
theorem claims_C4_witness : KeyConsistent wPlacesData ∧ C4Prop wPlacesData wBook 2 :=
  ⟨by decide, claims_C4 wPlacesData wBook 2 (by decide)⟩

/-- Witness for claim C5 at a coordinate-less gazetteer entry. -/
theorem claims_C5_witness :
    lookupPlace wPlacesData "nowhere" = some wNowhere ∧
    hasCoords wNowhere = false ∧
    TextSegment.place "nowhere" "Nowhere" false
      (decide ((none : Option String) = some "nowhere"))
      (List.contains [] "nowhere") ∈
      annotatedText wPlacesData none [] wC5Chapter :=
  ⟨by decide, by decide,
    (claims_C5 wPlacesData wBook 2 none [] wC5Chapter "nowhere" wNowhere
      (by decide) (by decide)).2.2 ⟨"nowhere", "Nowhere", 0, 7⟩ (by decide) rfl⟩

/-- Witness for claim C6: a place mentioned only in chapter 1, viewed from chapter 5. -/
theorem claims_C6_witness :
    KeyConsistent wPlacesData ∧
    ∃ mp ∈ (getMemoryPlaces wPlacesData wC6Book 5).memory,
      mp.place = wAthens ∧ mp.opacity = 64 / 100 ∧ mp.memoryChapter = some 1 :=
  ⟨by decide, claims_C6 wPlacesData wC6Book "athens" wAthens (by decide)
    (by decide) (by decide) (by decide) wC6Book_absent⟩

/-- Witness for claim C9 at a concrete failed fetch for chapter 1. -/
theorem claims_C9_witness :
    truthyStr (cacheLookup (fetchGreekText 1 FetchOutcome.err []) 1) = true ∧
    (0 : Int) ≠ 1 ∧
    cacheLookup (fetchGreekText 1 FetchOutcome.err [(0, "x")]) 0 =
      cacheLookup [(0, "x")] 0 :=
  ⟨(claims_C9 1 FetchOutcome.err [] ViewLanguage.greek).1, by decide,
    (claims_C9 1 FetchOutcome.err [(0, "x")] ViewLanguage.greek).2.2.2 0
      (by decide)⟩

/-- Witness for claim C10 at a concrete gazetteer with one shared chapter. -/
theorem claims_C10_witness :
    (coOccurringPlaces wPlacesData "athens").length ≤ 10 ∧
    (⟨wSparta, 1⟩ : CoPlace) ∈ coOccurringPlaces wPlacesData "athens" ∧
    ((⟨wSparta, 1⟩ : CoPlace).place.id ≠ "athens" ∧
      1 ≤ (⟨wSparta, 1⟩ : CoPlace).coCount ∧
      ∃ viewed, lookupPlace wPlacesData "athens" = some viewed ∧
        ∃ occ ∈ (⟨wSparta, 1⟩ : CoPlace).place.occurrences,
          (occ.book, occ.chapter) ∈ chapterKeySet viewed) :=
  ⟨(claims_C10 wPlacesData "athens").1, by decide,
    (claims_C10 wPlacesData "athens").2.2 ⟨wSparta, 1⟩ (by decide)⟩
